import Mathlib

/-!
Verification development for the `epubpack` document-assembly and
media-resolution pipeline (`src/main.py`, `src/utils/split_md_file.py`).

Text is modelled as `List Char` (Python `str` after universal-newline
translation); `String` wrappers mirror the Python function signatures.
Regex-driven rewrites are modelled as explicit left-to-right scanners with
Python `re` semantics: leftmost, non-overlapping matches, lazy/greedy
quantifier behaviour reproduced by the deterministic search each concrete
pattern admits.  Whitespace classes are restricted to the ASCII range of
Python's whitespace (the documents this pipeline handles are covered by it).
-/

namespace EpubPack

/-! ### Character and string primitives mirroring Python built-ins -/

/-- The ASCII range of Python's whitespace (`str.strip`, regex class of
blank characters): space, tab, newline, carriage return, vertical tab,
form feed. -/
def pyIsSpace (c : Char) : Bool :=
  c = ' ' || c = '\t' || c = '\n' || c = '\r' || c = '\x0b' || c = '\x0c'

/-- Python `str.lstrip()` on char lists. -/
def lstripL (l : List Char) : List Char := l.dropWhile pyIsSpace

/-- Python `str.rstrip()` on char lists. -/
def rstripL (l : List Char) : List Char :=
  List.foldr (fun c acc => if acc.isEmpty && pyIsSpace c then [] else c :: acc) [] l

/-- Python `str.strip()` on char lists. -/
def stripL (l : List Char) : List Char := rstripL (lstripL l)

/-- Python `pat in s` (substring containment). -/
def containsSub (pat : List Char) : List Char → Bool
  | [] => pat.isEmpty
  | c :: rest => pat.isPrefixOf (c :: rest) || containsSub pat rest

/-- Python `str.replace(pat, rep)` (all occurrences, leftmost,
non-overlapping).  The first argument counts characters still to be
skipped because they belong to a match whose replacement has already been
emitted. -/
def replaceGo (pat rep : List Char) : Nat → List Char → List Char
  | skip+1, _ :: rest => replaceGo pat rep skip rest
  | _, [] => []
  | 0, c :: rest =>
    if pat.isPrefixOf (c :: rest) then rep ++ replaceGo pat rep (pat.length - 1) rest
    else c :: replaceGo pat rep 0 rest

/-- Python `str.replace(pat, rep, 1)` (at most one occurrence, the
leftmost). -/
def replaceOnceGo (pat rep : List Char) : List Char → List Char
  | [] => []
  | c :: rest =>
    if pat.isPrefixOf (c :: rest) then rep ++ (c :: rest).drop pat.length
    else c :: replaceOnceGo pat rep rest

/-- Python `str.split('\n')`: always at least one (possibly empty) field. -/
def splitNL : List Char → List (List Char)
  | [] => [[]]
  | '\n' :: rest => [] :: splitNL rest
  | c :: rest =>
    match splitNL rest with
    | [] => [[c]]
    | l :: ls => (c :: l) :: ls

/-- Python `str.splitlines()` restricted to the terminators `\n`, `\r`,
`\r\n` (the exotic terminators `\v`, `\f`, `\x1c`‥`\x1e`, `\x85`,
` `, ` ` do not occur in the documents considered here). -/
def splitlinesL : List Char → List (List Char)
  | [] => []
  | '\r' :: '\n' :: rest => [] :: splitlinesL rest
  | '\n' :: rest => [] :: splitlinesL rest
  | '\r' :: rest => [] :: splitlinesL rest
  | c :: rest =>
    match splitlinesL rest with
    | [] => [[c]]
    | l :: ls => (c :: l) :: ls

/-! ### `preprocess_markdown` (src/main.py lines 33-68)

Three regex rewrites applied in order: `add_backslash_to_md_images`,
`convert_links_to_readable`, `escape_img_tags`. -/

/-- Matcher for `!\[[^\]]*\]\([^)]+\)` anchored at the head of the list;
returns the total match length.  Both character classes exclude their own
closing bracket, so the greedy quantifiers are deterministic. -/
def mdImageLen : List Char → Option Nat
  | '!' :: '[' :: r =>
    let t := r.takeWhile (fun c => c ≠ ']')
    match r.drop t.length with
    | ']' :: '(' :: r2 =>
      let u := r2.takeWhile (fun c => c ≠ ')')
      if u ≠ [] ∧ (r2.drop u.length).head? = some ')' then
        some (2 + t.length + 2 + u.length + 1)
      else none
    | _ => none
  | _ => none

/-- Scanner for `re.sub(r'(!\[[^\]]*\]\([^)]+\))', r'\1\\', text)`
(src/main.py lines 46-49): each Markdown image reference is re-emitted
verbatim with a backslash appended.  The `Nat` argument counts input
characters still to be dropped because they were already emitted as part of
a match. -/
def abGo : Nat → List Char → List Char
  | skip+1, _ :: rest => abGo skip rest
  | _, [] => []
  | 0, c :: rest =>
    match mdImageLen (c :: rest) with
    | some k => (c :: rest).take k ++ '\\' :: abGo (k - 1) rest
    | none => c :: abGo 0 rest

/-- `add_backslash_to_md_images` (src/main.py lines 46-49). -/
def add_backslash_to_md_images (s : String) : String := ⟨abGo 0 s.data⟩

/-- Search for the lazy match of `(.*?)\]\((.*?)\)` at the head of the
list (the part of `_LINK_PATTERN` after the opening `[`): the shortest
link text (newline-free) followed by `](`, then the shortest URL
(newline-free) closed by `)`.  Returns (link text, url, consumed length).
When the URL part fails at a candidate `](` split the lazy engine extends
the link text past it and retries, which is the recursive fallback. -/
def linkSplitFull : List Char → Option (List Char × List Char × Nat)
  | ']' :: '(' :: r2 =>
    let u := r2.takeWhile (fun c => c ≠ ')' && c ≠ '\n')
    if (r2.drop u.length).head? = some ')' then some ([], u, 2 + u.length + 1)
    else (linkSplitFull r2).map (fun p => (']' :: '(' :: p.1, p.2.1, p.2.2 + 2))
  | '\n' :: _ => none
  | c :: r2 => (linkSplitFull r2).map (fun p => (c :: p.1, p.2.1, p.2.2 + 1))
  | [] => none

/-- URL shortening of `convert_links_to_readable` (src/main.py lines
56-59): URLs longer than 60 characters keep the first 30 and last 7
characters joined by an ellipsis. -/
def shortenUrl (u : List Char) : List Char :=
  if u.length > 60 then u.take 30 ++ ('.' :: '.' :: '.' :: []) ++ u.drop (u.length - 7)
  else u

/-- Scanner for `_LINK_PATTERN.sub(replacement, text)` with
`_LINK_PATTERN = re.compile(r'(?<!!)\[(.*?)\]\((.*?)\)')`
(src/main.py lines 51-62).  `prev` is the input character before the
current position (for the `(?<!!)` lookbehind); the `Nat` argument counts
input characters of an already-replaced match still to drop. -/
def convGo : Option Char → Nat → List Char → List Char
  | prev, skip+1, _ :: rest => convGo prev skip rest
  | _, _, [] => []
  | prev, 0, c :: rest =>
    if c = '[' && prev ≠ some '!' then
      match linkSplitFull rest with
      | some (t, u, k) =>
        '`' :: '[' :: t ++ ']' :: '(' :: shortenUrl u ++ ')' :: '`' :: convGo (some ')') k rest
      | none => c :: convGo (some c) 0 rest
    else c :: convGo (some c) 0 rest

/-- `convert_links_to_readable` (src/main.py lines 51-62). -/
def convert_links_to_readable (s : String) : String := ⟨convGo none 0 s.data⟩

/-- Matcher for `(?<!`)(<img)(\s*>)(?!`)` (case-insensitive) anchored at
the head of the list: returns the total match length (the lookbehind is
checked by the caller, the lookahead here). -/
def matchImgLen : List Char → Option Nat
  | '<' :: c1 :: c2 :: c3 :: rest =>
    if (c1 = 'i' || c1 = 'I') && (c2 = 'm' || c2 = 'M') && (c3 = 'g' || c3 = 'G') then
      let ws := rest.takeWhile pyIsSpace
      match rest.drop ws.length with
      | '>' :: after => if after.head? = some '`' then none else some (5 + ws.length)
      | _ => none
    else none
  | _ => none

/-- Scanner for `escape_img_tags` (src/main.py lines 37-43):
`re.sub(r'(?<!`)(<img)(\s*>)(?!`)', lambda m: "&lt;" + m.group(1)[1:] +
m.group(2), text, flags=re.IGNORECASE)`.  On a match the scanner emits
`&lt;` and then copies the rest of the matched span (`img`, blanks, `>`)
verbatim — which is exactly the replacement string — tracking the pending
copy count in the `Nat` argument.  `prev` is the previous input character
for the lookbehind; the last character of a matched span is `>`, which the
match branch records. -/
def escapeGo : Option Char → Nat → List Char → List Char
  | _, _, [] => []
  | prev, skip+1, c :: rest => c :: escapeGo prev skip rest
  | prev, 0, c :: rest =>
    if c = '<' && prev ≠ some '`' then
      match matchImgLen (c :: rest) with
      | some k => '&' :: 'l' :: 't' :: ';' :: escapeGo (some '>') (k - 1) rest
      | none => c :: escapeGo (some c) 0 rest
    else c :: escapeGo (some c) 0 rest

/-- `escape_img_tags` (src/main.py lines 37-43). -/
def escape_img_tags (s : String) : String := ⟨escapeGo none 0 s.data⟩

/-- `preprocess_markdown` (src/main.py lines 33-68): the three rewrites in
source order. -/
def preprocess_markdown (content : String) : String :=
  escape_img_tags (convert_links_to_readable (add_backslash_to_md_images content))

/-! ### `process_image_urls_in_md` (src/main.py lines 180-243)

The filesystem/network layer is abstracted away: the pure text transform
takes the collected `(url, local filename)` results of the download tasks
(in completion order, as drained from `as_completed`) as a parameter. -/

/-- Find the first occurrence of three consecutive backticks; returns the
characters before it and its end position (`|before| + 3`). -/
def findTripleLen : List Char → Option (List Char × Nat)
  | '`' :: '`' :: '`' :: _ => some ([], 3)
  | c :: rest => (findTripleLen rest).map (fun p => (c :: p.1, p.2 + 1))
  | [] => none

/-- Scanner for `re.findall(r'```.*?```', content, re.DOTALL)`
(src/main.py lines 187-188): lazy span from an opening triple backtick to
the nearest closing one, scanning resuming after each match.  If no
closing triple backtick exists after an opening one, no further match can
start (any later match's delimiters would lie wholly inside the remaining
text), so the scan ends. -/
def fcbGo : Nat → List Char → List (List Char)
  | skip+1, _ :: rest => fcbGo skip rest
  | _, [] => []
  | 0, '`' :: '`' :: '`' :: rest =>
    match findTripleLen rest with
    | some (u, k) =>
      ('`' :: '`' :: '`' :: u ++ '`' :: '`' :: '`' :: []) :: fcbGo k rest
    | none => []
  | 0, _ :: rest => fcbGo 0 rest

/-- The placeholder `f"__CODE_BLOCK_{i}__"` (src/main.py line 193). -/
def placeholder (i : Nat) : List Char :=
  ('_' :: '_' :: []) ++ ('C' :: 'O' :: 'D' :: 'E' :: '_' :: 'B' :: 'L' :: 'O' :: 'C' :: 'K' :: '_' :: []) ++ (toString i).data ++ ('_' :: '_' :: [])

/-- Lines 191-195: each extracted block is replaced (first occurrence
only) by its placeholder, in order. -/
def protectBlocks (content : List Char) (blocks : List (List Char)) : List Char :=
  blocks.enum.foldl (fun t ib => replaceOnceGo ib.2 (placeholder ib.1) t) content

/-- Lines 235-238: each placeholder is replaced (first occurrence only)
back by its block, in order. -/
def restoreBlocks (content : List Char) (blocks : List (List Char)) : List Char :=
  blocks.enum.foldl (fun t ib => replaceOnceGo (placeholder ib.1) ib.2 t) content

/-- Lazy match of `.*?\]\((http[^\)]+)\)` at the head (the part of the
Markdown image URL pattern after `![`); returns the captured URL and the
number of characters consumed.  A failing candidate `](` split makes the
lazy `.*?` extend past it, which is the recursive fallback. -/
def mdUrlSplit : List Char → Option (List Char × Nat)
  | ']' :: '(' :: r2 =>
    (match r2 with
     | 'h' :: 't' :: 't' :: 'p' :: w =>
       let v := w.takeWhile (fun c => c ≠ ')')
       if v ≠ [] ∧ (w.drop v.length).head? = some ')' then
         some ('h' :: 't' :: 't' :: 'p' :: v, 2 + 4 + v.length + 1)
       else (mdUrlSplit r2).map (fun p => (p.1, p.2 + 2))
     | _ => (mdUrlSplit r2).map (fun p => (p.1, p.2 + 2)))
  | '\n' :: _ => none
  | _ :: r2 => (mdUrlSplit r2).map (fun p => (p.1, p.2 + 1))
  | [] => none

/-- Scanner for `re.findall(r'!\[.*?\]\((http[^\)]+)\)', content)`
(src/main.py line 198), collecting the captured URLs. -/
def mdFindGo : Nat → List Char → List (List Char)
  | skip+1, _ :: rest => mdFindGo skip rest
  | _, [] => []
  | 0, '!' :: '[' :: rest =>
    (match mdUrlSplit rest with
     | some (u, k) => u :: mdFindGo k rest
     | none =>
       -- no match here; the scan advances one position, but the `[` the
       -- engine would retry at cannot start a `![` match either
       mdFindGo 0 rest)
  | 0, _ :: rest => mdFindGo 0 rest

/-- Greedy match of `[^>]+src="([^"]+)"` at the head (the part of the
HTML image pattern after `<img`); returns the captured URL and the number
of characters consumed.  The greedy `[^>]+` prefers the rightmost `src="`
occurrence whose quoted value closes, so the scan recurses first and falls
back to a match at the current position. -/
def htmlSrcGo : List Char → Option (List Char × Nat)
  | c :: rest =>
    if c = '>' then none
    else
      match htmlSrcGo rest with
      | some p => some (p.1, p.2 + 1)
      | none =>
        match rest with
        | 's' :: 'r' :: 'c' :: '=' :: '"' :: r2 =>
          let g := r2.takeWhile (fun x => x ≠ '"')
          if g ≠ [] ∧ (r2.drop g.length).head? = some '"' then
            some (g, 1 + 5 + g.length + 1)
          else none
        | _ => none
  | [] => none

/-- Scanner for `re.findall(r'<img[^>]+src="([^"]+)"', content)`
(src/main.py line 200), collecting the captured URLs. -/
def htmlFindGo : Nat → List Char → List (List Char)
  | skip+1, _ :: rest => htmlFindGo skip rest
  | _, [] => []
  | 0, '<' :: 'i' :: 'm' :: 'g' :: rest =>
    (match htmlSrcGo rest with
     | some (u, k) => u :: htmlFindGo k rest
     | none =>
       -- no match here; the scan advances one position, but none of the
       -- skipped `i`, `m`, `g` characters can start a `<img` match
       htmlFindGo 0 rest)
  | 0, _ :: rest => htmlFindGo 0 rest

/-- Lines 197-204: Markdown matches then HTML matches, keeping those that
start with `http`.  In the source this runs on the placeholder-protected
content; one download task is submitted per list element (line 221). -/
def image_urls_in (content : List Char) : List (List Char) :=
  (mdFindGo 0 content ++ htmlFindGo 0 content).filter
    (fun u => ('h' :: 't' :: 't' :: 'p' :: []).isPrefixOf u)

/-- The URLs the Media Resolver submits download tasks for, one task per
list element (src/main.py lines 186-221, applied to the
placeholder-protected text). -/
def collect_image_urls (content : String) : List String :=
  (image_urls_in (protectBlocks content.data (fcbGo 0 content.data))).map List.asString

/-- One step of the replacement loop at src/main.py lines 232-233:
`content = content.replace(original_url, f"images/{new_filename}")`. -/
def urlStep (t : List Char) (r : String × String) : List Char :=
  replaceGo r.1.data ("images/" ++ r.2).data 0 t

/-- The pure text transform of `process_image_urls_in_md`
(src/main.py lines 183-241): extract the fenced code blocks, replace each
by its placeholder, apply one whole-text replacement per collected
`(url, filename)` result in collection order, then restore the blocks. -/
def process_image_urls_in_md (content : String) (results : List (String × String)) : String :=
  let blocks := fcbGo 0 content.data
  let prot := protectBlocks content.data blocks
  let replaced := results.foldl urlStep prot
  ⟨restoreBlocks replaced blocks⟩

/-! ### `download_image` format classification (src/main.py lines 76-100) -/

/-- `os.path.splitext(p)[1]` (posix): the suffix from the last dot,
provided that dot lies inside the last path component and is preceded
there by at least one non-dot character. -/
def splitextExtRaw (l : List Char) : List Char :=
  let base := (l.reverse.takeWhile (fun c => c ≠ '/')).reverse
  let afterDotRev := base.reverse.takeWhile (fun c => c ≠ '.')
  if base.any (fun c => c = '.') then
    let beforeDot := base.take (base.length - afterDotRev.length - 1)
    if beforeDot.any (fun c => c ≠ '.') then '.' :: afterDotRev.reverse else []
  else []

/-- `os.path.splitext(url)[1].lower()` (src/main.py line 77). -/
def original_ext_of (url : String) : List Char := (splitextExtRaw url.data).map Char.toLower

/-- The classification cascade of `download_image` (src/main.py lines
77-100) computing `final_ext` from the response's `content-type` header
and the URL.  Each stage tests a content-type substring *or* the URL
extension; the final `else` re-derives the extension exactly as the source
does. -/
def final_ext (content_type url : String) : String :=
  let original_ext := original_ext_of url
  let ct := content_type.data.map Char.toLower
  if containsSub ['j','p','e','g'] ct || containsSub ['j','p','g'] ct
      || original_ext = ['.','j','p','g'] || original_ext = ['.','j','p','e','g'] then ".jpg"
  else if containsSub ['p','n','g'] ct || original_ext = ['.','p','n','g'] then ".png"
  else if containsSub ['g','i','f'] ct || original_ext = ['.','g','i','f'] then ".gif"
  else if containsSub ['w','e','b','p'] ct || original_ext = ['.','w','e','b','p'] then ".jpg"
  else
    let original_ext := original_ext_of url
    if original_ext = ['.','j','p','g'] || original_ext = ['.','j','p','e','g'] then ".jpg"
    else if original_ext = ['.','p','n','g'] then ".png"
    else if original_ext = ['.','g','i','f'] then ".gif"
    else ".jpg"

/-! ### `remove_yaml_front_matter` (src/main.py lines 272-280) -/

/-- The loop at lines 277-279 over `lines[1:]`: drop everything up to and
including the first line whose `strip()` is `---`; `none` when no such
line exists. -/
def findFrontMatterEnd : List (List Char) → Option (List (List Char))
  | [] => none
  | l :: rest =>
    if stripL l = ['-', '-', '-'] then some rest else findFrontMatterEnd rest

/-- `remove_yaml_front_matter` (src/main.py lines 272-280). -/
def remove_yaml_front_matter (content : String) : String :=
  let c := lstripL content.data
  if ['-', '-', '-'].isPrefixOf c then
    match splitlinesL c with
    | [] => ⟨c⟩
    | _ :: rest =>
      match findFrontMatterEnd rest with
      | some remaining => ⟨lstripL (List.intercalate ['\n'] remaining)⟩
      | none => ⟨c⟩
  else ⟨c⟩

/-! ### `include_content` and the directory walk
(src/main.py lines 253-270 and 282-319) -/

/-- The heading adjustment applied to one line (src/main.py lines
301-313): if the stripped line starts with `#`, count the line's leading
`#` markers, add `base_level`, clamp at 6, and re-emit that many markers
followed by the line after its original markers. -/
def adjust_heading_line (base_level : Nat) (line : List Char) : List Char :=
  if (stripL line).head? = some '#' then
    let current_level := line.length - (line.dropWhile (fun c => c = '#')).length
    let new_level := min (base_level + current_level) 6
    List.replicate new_level '#' ++ line.drop current_level
  else line

/-- Lines 297-315: split on `'\n'`, adjust every line, re-join. -/
def adjust_content (base_level : Nat) (content : List Char) : List Char :=
  List.intercalate ['\n'] ((splitNL content).map (adjust_heading_line base_level))

/-- `item.startswith(('_', '.'))` (src/main.py line 256). -/
def nameSkipped (name : String) : Bool :=
  match name.data with
  | c :: _ => c = '_' || c = '.'
  | [] => false

/-- `name.lower().endswith(suffix)` for a lowercase suffix. -/
def lowerEndsWith (name : String) (suffix : List Char) : Bool :=
  suffix.isSuffixOf (name.data.map Char.toLower)

/-- `item.lower().endswith((".html", ".md"))` (src/main.py line 265). -/
def isEligibleFile (name : String) : Bool :=
  lowerEndsWith name ['.','h','t','m','l'] || lowerEndsWith name ['.','m','d']

/-- `os.path.splitext(item)[0]`: the name without its extension. -/
def splitext_root (l : List Char) : List Char :=
  l.take (l.length - (splitextExtRaw l).length)

/-- `include_content` (src/main.py lines 282-319).  `raw` is the text the
function obtains for the fragment — the file's content for `.md`, the
external converter's standard output for `.html` — with `Except.error`
modelling any raised exception (read failure, converter failure).  On
error the visible inline marker is written instead of the section body. -/
def include_content (file_path : String) (raw : Except String String) (base_level : Nat) : String :=
  match raw with
  | .error _ => "*[Error processing file: " ++ file_path ++ "]*\n"
  | .ok content =>
    let content := if lowerEndsWith file_path ['.','m','d'] then remove_yaml_front_matter content
                   else content
    ⟨adjust_content base_level content.data⟩

/-- A directory entry as seen by `process_directory`: a subdirectory with
its (already naturally sorted — sorting is delegated to the external
`natsorted`) children, or a file together with the raw content
`include_content` would obtain for it. -/
inductive Entry : Type
  | dir (name : String) (children : List Entry)
  | file (name : String) (raw : Except String String)

/-- `process_directory` (src/main.py lines 253-270) as the text it writes
to the composite document handle: entries starting with `_`/`.` are
skipped, directories emit a heading and recurse one level deeper, eligible
files emit a heading, their included content, and a blank-line
separator. -/
def process_list (cwd : String) (level : Nat) : List Entry → String
  | [] => ""
  | Entry.dir name children :: rest =>
    (if nameSkipped name then ""
     else ⟨List.replicate (level + 1) '#'⟩ ++ " " ++ name ++ "\n\n"
          ++ process_list (cwd ++ "/" ++ name) (level + 1) children)
    ++ process_list cwd level rest
  | Entry.file name raw :: rest =>
    (if nameSkipped name then ""
     else if isEligibleFile name then
       ⟨List.replicate (level + 1) '#'⟩ ++ " " ++ (⟨splitext_root name.data⟩ : String) ++ "\n\n"
       ++ include_content (cwd ++ "/" ++ name) raw (level + 1) ++ "\n\n"
     else "")
    ++ process_list cwd level rest

/-! ### `split_markdown_file` (src/utils/split_md_file.py lines 5-35) -/

/-- Python `f.readlines()` on universal-newline-translated text: the
lines of the content with their terminating `'\n'` kept. -/
def readlinesNL : List Char → List (List Char)
  | [] => []
  | '\n' :: rest => ['\n'] :: readlinesNL rest
  | c :: rest =>
    match readlinesNL rest with
    | [] => [[c]]
    | l :: ls => (c :: l) :: ls

/-- The slice `lines[k*n : k*n + n]` written for chunk `k`
(src/utils/split_md_file.py lines 15-33, where the loop variable
`i = k * lines_per_file` and `end_index = min(i + lines_per_file,
total_lines)`). -/
def chunk_slice (n k : Nat) (lines : List (List Char)) : List (List Char) :=
  (lines.drop (k * n)).take n

/-- The number of chunks the loop `range(0, total_lines, lines_per_file)`
produces. -/
def num_chunks (n total : Nat) : Nat := (total + n - 1) / n

/-- `split_markdown_file` (src/utils/split_md_file.py lines 5-35) as the
list of file contents it writes, in order: chunk `k` is `lines[k*n :
k*n+n]` re-concatenated by `writelines`. -/
def split_markdown_file (content : String) (lines_per_file : Nat) : List String :=
  let lines := readlinesNL content.data
  (List.range (num_chunks lines_per_file lines.length)).map
    (fun k => ⟨(chunk_slice lines_per_file k lines).flatten⟩)

/-! ## Theorems -/

/-! ### Front matter: helper lemmas -/

theorem findFrontMatterEnd_eq_none (ls : List (List Char))
    (h : ∀ l ∈ ls, stripL l ≠ ['-', '-', '-']) : findFrontMatterEnd ls = none := by
  induction ls with
  | nil => rfl
  | cons l rest ih =>
    have hl := h l (List.mem_cons_self l rest)
    simp only [findFrontMatterEnd, if_neg hl]
    exact ih fun x hx => h x (List.mem_cons_of_mem l hx)

theorem findFrontMatterEnd_append (ys : List (List Char)) (d : List Char)
    (rest : List (List Char)) (hys : ∀ l ∈ ys, stripL l ≠ ['-', '-', '-'])
    (hd : stripL d = ['-', '-', '-']) :
    findFrontMatterEnd (ys ++ d :: rest) = some rest := by
  induction ys with
  | nil => simp [findFrontMatterEnd, hd]
  | cons y ys ih =>
    have hy := hys y (List.mem_cons_self y ys)
    simp only [List.cons_append, findFrontMatterEnd, if_neg hy]
    exact ih fun x hx => hys x (List.mem_cons_of_mem y hx)

/-- C6 (counterexample): the code ends the front-matter block at the first
line whose *stripped* form is `---`, not at the first line that is exactly
`---`.  On `"---\na: 1\n --- \nmid\n---\nBody"` the claim predicts `"Body"`
(the first exact `---` line is the fifth), but the code stops at the
`" --- "` line and returns `"mid\n---\nBody"`. -/
theorem remove_yaml_stops_at_stripped_delimiter :
    remove_yaml_front_matter "---\na: 1\n --- \nmid\n---\nBody" = "mid\n---\nBody" ∧
    ("mid\n---\nBody" : String) ≠ "Body" := by
  constructor
  · decide
  · decide

/-- C6 (amended): for content whose left-stripped form starts with `---`,
whose line list is a first line, then lines none of which strip to `---`,
then a line that strips to `---`, the function returns everything after
that delimiter line, re-joined with `\n` and left-stripped. -/
theorem remove_yaml_front_matter_strips_block (content : String) (first d : List Char)
    (ys rest : List (List Char))
    (hpre : ['-', '-', '-'].isPrefixOf (lstripL content.data) = true)
    (hsplit : splitlinesL (lstripL content.data) = first :: (ys ++ d :: rest))
    (hys : ∀ l ∈ ys, stripL l ≠ ['-', '-', '-'])
    (hd : stripL d = ['-', '-', '-']) :
    remove_yaml_front_matter content = ⟨lstripL (List.intercalate ['\n'] rest)⟩ := by
  simp only [remove_yaml_front_matter, hpre, if_true, hsplit,
    findFrontMatterEnd_append ys d rest hys hd]

/-- C6 (witness): the spec's own example, `"---\na: 1\n---\nBody"`, is
included as just `"Body"`. -/
theorem remove_yaml_front_matter_strips_block_witness :
    remove_yaml_front_matter "---\na: 1\n---\nBody" = "Body" :=
  (remove_yaml_front_matter_strips_block "---\na: 1\n---\nBody"
      ['-', '-', '-'] ['-', '-', '-'] [['a', ':', ' ', '1']] [['B', 'o', 'd', 'y']]
      (by decide) (by decide) (by decide) (by decide)).trans (by decide)

/-- C9: when the left-stripped content starts with `---` but no later line
strips to `---`, the function returns the content unchanged apart from the
removal of leading whitespace — it never strips an unterminated
front-matter block down to nothing. -/
theorem remove_yaml_front_matter_unterminated (content : String)
    (hpre : ['-', '-', '-'].isPrefixOf (lstripL content.data) = true)
    (hnone : ∀ l ∈ (splitlinesL (lstripL content.data)).tail,
      stripL l ≠ ['-', '-', '-']) :
    remove_yaml_front_matter content = ⟨lstripL content.data⟩ := by
  cases hsp : splitlinesL (lstripL content.data) with
  | nil => simp only [remove_yaml_front_matter, hpre, if_true, hsp]
  | cons first rest =>
    rw [hsp] at hnone
    simp only [remove_yaml_front_matter, hpre, if_true, hsp,
      findFrontMatterEnd_eq_none rest hnone]

/-- C9 (witness): an unterminated front-matter block is left in place. -/
theorem remove_yaml_front_matter_unterminated_witness :
    remove_yaml_front_matter "  ---\ntitle: x\nbody text" = "---\ntitle: x\nbody text" :=
  (remove_yaml_front_matter_unterminated "  ---\ntitle: x\nbody text"
      (by decide) (by decide)).trans (by decide)

/-! ### C1: the Content Normalizer rewrites fenced code blocks -/

/-- C1: `preprocess_markdown` applies its three rewrites to the whole text
with no code-block protection, so a Markdown image reference inside a
fenced code block gets a backslash appended inside the block: the single
fenced block of the input is altered, contradicting the required
code-block inviolability.  (The Media Resolver pass does protect fenced
blocks via placeholders, src/main.py lines 186-195 and 235-238; the
Normalizer, lines 33-68, does not.) -/
theorem preprocess_markdown_alters_fenced_block :
    preprocess_markdown "```\n![a](b)\n```" = "```\n![a](b)\\\n```" ∧
    fcbGo 0 ("```\n![a](b)\\\n```" : String).data ≠
      fcbGo 0 ("```\n![a](b)\n```" : String).data := by
  constructor
  · decide
  · decide

/-! ### C2: idempotence of the three rewrites -/

/-- C2 (counterexample): the first two rewrites are not idempotent.  The
image-backslash rewrite appends a further backslash on every run
(`![a](b)` ↦ `![a](b)\` ↦ `![a](b)\\`), and the link rewrite re-wraps its
own output in another pair of backticks (`[t](u)` ↦ `` `[t](u)` `` ↦
```` ``[t](u)`` ````). -/
theorem normalizer_rewrites_not_idempotent :
    add_backslash_to_md_images (add_backslash_to_md_images "![a](b)") ≠
      add_backslash_to_md_images "![a](b)" ∧
    convert_links_to_readable (convert_links_to_readable "[t](u)") ≠
      convert_links_to_readable "[t](u)" := by
  constructor
  · decide
  · decide

/-! ### C7: format classification in `download_image` -/

/-- C7 (counterexample): classification is not "content-type first with
extension fallback", and webp is not always normalized to JPEG.  With
content-type `image/png` and URL extension `.jpg` the first cascade stage
fires on the extension, yielding `.jpg` where the claim predicts `.png`;
with content-type `image/webp` and URL extension `.png` the PNG stage
fires on the extension before the webp stage is reached, yielding `.png`
where the claim predicts `.jpg`. -/
theorem final_ext_not_content_type_first :
    final_ext "image/png" "http://e/x.jpg" = ".jpg" ∧
    final_ext "image/webp" "http://e/x.png" = ".png" ∧
    (".jpg" : String) ≠ ".png" := by
  refine ⟨by decide, by decide, by decide⟩

/-- C7 (amended): classification follows the fixed cascade JPEG → PNG →
GIF → WEBP, each stage testing a content-type substring *or* the URL
extension, the first hit winning; the result always lies in the fixed set
`{.jpg, .png, .gif}`; when neither the content-type nor the extension
carries any recognized signal the default is JPEG; and a webp signal that
is the first stage to hit is normalized to JPEG. -/
theorem final_ext_cascade (ct url : String) :
    (final_ext ct url = ".jpg" ∨ final_ext ct url = ".png" ∨ final_ext ct url = ".gif")
    ∧ (containsSub ['j','p','e','g'] (ct.data.map Char.toLower) = false →
       containsSub ['j','p','g'] (ct.data.map Char.toLower) = false →
       containsSub ['p','n','g'] (ct.data.map Char.toLower) = false →
       containsSub ['g','i','f'] (ct.data.map Char.toLower) = false →
       containsSub ['w','e','b','p'] (ct.data.map Char.toLower) = false →
       original_ext_of url ∉ ([['.','j','p','g'], ['.','j','p','e','g'], ['.','p','n','g'],
         ['.','g','i','f'], ['.','w','e','b','p']] : List (List Char)) →
       final_ext ct url = ".jpg")
    ∧ (containsSub ['w','e','b','p'] (ct.data.map Char.toLower) = true →
       containsSub ['j','p','e','g'] (ct.data.map Char.toLower) = false →
       containsSub ['j','p','g'] (ct.data.map Char.toLower) = false →
       containsSub ['p','n','g'] (ct.data.map Char.toLower) = false →
       containsSub ['g','i','f'] (ct.data.map Char.toLower) = false →
       original_ext_of url ∉ ([['.','j','p','g'], ['.','j','p','e','g'], ['.','p','n','g'],
         ['.','g','i','f']] : List (List Char)) →
       final_ext ct url = ".jpg") := by
  refine ⟨?_, ?_, ?_⟩
  · simp only [final_ext]
    split_ifs <;> simp
  · intro h1 h2 h3 h4 h5 h6
    simp only [List.mem_cons, List.mem_singleton, not_or] at h6
    obtain ⟨e1, e2, e3, e4, e5⟩ := h6
    simp [final_ext, h1, h2, h3, h4, h5, e1, e2, e3, e4, e5]
  · intro h0 h1 h2 h3 h4 h5
    simp only [List.mem_cons, List.mem_singleton, not_or] at h5
    obtain ⟨e1, e2, e3, e4⟩ := h5
    simp [final_ext, h0, h1, h2, h3, h4, e1, e2, e3, e4]

/-- C7 (witness): a fully unrecognized source defaults to JPEG, and a
webp-only signal is normalized to JPEG. -/
theorem final_ext_cascade_witness :
    final_ext "text/plain" "http://e/x.bin" = ".jpg" ∧
    final_ext "image/webp" "http://e/y.bin" = ".jpg" :=
  ⟨(final_ext_cascade "text/plain" "http://e/x.bin").2.1
      (by decide) (by decide) (by decide) (by decide) (by decide) (by decide),
   (final_ext_cascade "image/webp" "http://e/y.bin").2.2
      (by decide) (by decide) (by decide) (by decide) (by decide) (by decide)⟩

/-! ### C4: heading shift in `include_content` -/

theorem dropWhile_hash_replicate (k : Nat) (rest : List Char)
    (h : rest.head? ≠ some '#') :
    (List.replicate k '#' ++ rest).dropWhile (fun c => c = '#') = rest := by
  induction k with
  | zero =>
    cases rest with
    | nil => rfl
    | cons c t =>
      have : c ≠ '#' := fun hc => h (by simp [hc])
      simp [List.dropWhile_cons, this]
  | succ k ih => simpa [List.replicate_succ, List.dropWhile_cons] using ih

theorem stripL_head_of_hash (k : Nat) (rest : List Char) (hk : 0 < k) :
    (stripL (List.replicate k '#' ++ rest)).head? = some '#' := by
  obtain ⟨k, rfl⟩ : ∃ m, k = m + 1 := ⟨k - 1, by omega⟩
  have hlstrip : lstripL (List.replicate (k + 1) '#' ++ rest)
      = '#' :: (List.replicate k '#' ++ rest) := by
    simp [lstripL, List.replicate_succ, List.dropWhile_cons, pyIsSpace]
  have hrstrip : ∀ xs : List Char, (rstripL ('#' :: xs)).head? = some '#' := by
    intro xs
    simp [rstripL, pyIsSpace]
  rw [stripL, hlstrip, hrstrip]

/-- C4 (counterexample): heading detection is `line.strip().startswith('#')`
but the marker count is taken on the raw line, so the whitespace-indented
line `"  # x"` — which has zero leading `#` markers and is therefore not a
level-`k` heading in the claim's sense — is nevertheless rewritten at base
depth 2 to `"##  # x"`: it neither passes through unchanged nor is emitted
with `min (d + k) 6` markers followed by the remainder after the markers. -/
theorem adjust_heading_line_indented_rewritten :
    adjust_heading_line 2 (' ' :: ' ' :: '#' :: ' ' :: 'x' :: [])
      = '#' :: '#' :: ' ' :: ' ' :: '#' :: ' ' :: 'x' :: [] ∧
    ('#' :: '#' :: ' ' :: ' ' :: '#' :: ' ' :: 'x' :: [])
      ≠ (' ' :: ' ' :: '#' :: ' ' :: 'x' :: []) := by
  constructor
  · decide
  · decide

/-- C4 (amended): a fragment line with `k ≥ 1` leading `#` markers,
included at base depth `d`, is emitted with `min (d + k) 6` markers
followed by the original remainder of the line verbatim; a line whose
stripped form does not start with `#` passes through unchanged; and a
line with leading whitespace whose stripped form starts with `#` is
treated as a heading of current level 0: `min d 6` markers are prepended
to the otherwise unchanged line. -/
theorem include_content_heading_shift :
    (∀ (d k : Nat) (rest : List Char), 0 < k → rest.head? ≠ some '#' →
      adjust_heading_line d (List.replicate k '#' ++ rest) =
        List.replicate (min (d + k) 6) '#' ++ rest) ∧
    (∀ (d : Nat) (line : List Char), (stripL line).head? ≠ some '#' →
      adjust_heading_line d line = line) ∧
    (∀ (d : Nat) (line : List Char), (stripL line).head? = some '#' →
      line.head? ≠ some '#' →
      adjust_heading_line d line = List.replicate (min d 6) '#' ++ line) := by
  refine ⟨?_, ?_, ?_⟩
  · intro d k rest hk hrest
    have hdrop : (List.replicate k '#' ++ rest).drop k = rest :=
      List.drop_left' (by simp)
    unfold adjust_heading_line
    rw [if_pos (stripL_head_of_hash k rest hk)]
    simp only [dropWhile_hash_replicate k rest hrest, List.length_append,
      List.length_replicate, Nat.add_sub_cancel, hdrop]
  · intro d line hline
    unfold adjust_heading_line
    rw [if_neg hline]
  · intro d line h1 h2
    unfold adjust_heading_line
    rw [if_pos h1]
    cases line with
    | nil => simp [stripL, lstripL, rstripL] at h1
    | cons c rest =>
      have hc : c ≠ '#' := fun hch => h2 (by simp [hch])
      rw [List.dropWhile_cons, if_neg (by simpa using hc)]
      simp

/-- C4 (witness): `# Title` at base depth 2 becomes `### Title`; a plain
line is unchanged; the indented `"\t# T"` at base depth 3 gets three
markers prepended in front of the unchanged line. -/
theorem include_content_heading_shift_witness :
    adjust_heading_line 2 ('#' :: ' ' :: 'T' :: []) = '#' :: '#' :: '#' :: ' ' :: 'T' :: [] ∧
    adjust_heading_line 2 ('p' :: []) = 'p' :: [] ∧
    adjust_heading_line 3 ('\t' :: '#' :: ' ' :: 'T' :: [])
      = '#' :: '#' :: '#' :: '\t' :: '#' :: ' ' :: 'T' :: [] := by
  refine ⟨?_, ?_, ?_⟩
  · have h := include_content_heading_shift.1 2 1 (' ' :: 'T' :: []) (by decide) (by decide)
    simpa using h
  · exact include_content_heading_shift.2.1 2 ('p' :: []) (by decide)
  · have h := include_content_heading_shift.2.2 3 ('\t' :: '#' :: ' ' :: 'T' :: [])
      (by decide) (by decide)
    simpa using h

/-! ### C10: `split_markdown_file` -/

theorem readlinesNL_flatten : ∀ l : List Char, (readlinesNL l).flatten = l := by
  intro l
  induction l with
  | nil => rfl
  | cons c rest ih =>
    by_cases hc : c = '\n'
    · subst hc
      simp [readlinesNL, ih]
    · rw [readlinesNL]
      · cases hr : readlinesNL rest with
        | nil =>
          rw [hr] at ih
          simp at ih
          simp [ih]
        | cons x xs =>
          rw [hr] at ih
          simpa [List.flatten] using ih
      · exact hc

theorem num_chunks_zero (n : Nat) (hn : 0 < n) : num_chunks n 0 = 0 := by
  unfold num_chunks
  exact Nat.div_eq_of_lt (by omega)

theorem num_chunks_succ (n total : Nat) (hn : 0 < n) (ht : 0 < total) :
    num_chunks n total = num_chunks n (total - n) + 1 := by
  unfold num_chunks
  rcases Nat.le_total total n with h | h
  · have h1 : total - n = 0 := by omega
    have e0 : (0 + n - 1) / n = 0 := Nat.div_eq_of_lt (by omega)
    have e1 : (total + n - 1) / n = 1 := Nat.div_eq_of_lt_le (by omega) (by omega)
    rw [h1, e0, e1]
  · have h2 : total + n - 1 = (total - n + n - 1) + n := by omega
    rw [h2, Nat.add_div_right _ hn]

theorem chunk_slice_zero (n : Nat) (ls : List (List Char)) :
    chunk_slice n 0 ls = ls.take n := by
  simp [chunk_slice]

theorem chunk_slice_succ (n k : Nat) (ls : List (List Char)) :
    chunk_slice n (k + 1) ls = chunk_slice n k (ls.drop n) := by
  unfold chunk_slice
  rw [List.drop_drop]
  congr 1
  ring_nf

theorem chunk_concat (n : Nat) (hn : 0 < n) : ∀ (ls : List (List Char)),
    ((List.range (num_chunks n ls.length)).map
      (fun k => (chunk_slice n k ls).flatten)).flatten = ls.flatten := by
  intro ls
  generalize hls : ls.length = total
  induction total using Nat.strong_induction_on generalizing ls with
  | _ total ih =>
    subst hls
    cases ls with
    | nil => simp [num_chunks_zero n hn]
    | cons x xs =>
      have hpos : 0 < (x :: xs).length := by simp
      rw [num_chunks_succ n _ hn hpos, List.range_succ_eq_map]
      simp only [List.map_cons, List.map_map, List.flatten_cons]
      have hmap : List.map ((fun k => (chunk_slice n k (x :: xs)).flatten) ∘ Nat.succ)
          (List.range (num_chunks n ((x :: xs).length - n)))
          = List.map (fun k => (chunk_slice n k ((x :: xs).drop n)).flatten)
            (List.range (num_chunks n ((x :: xs).length - n))) :=
        List.map_congr_left (fun k _ => by simp [Function.comp, chunk_slice_succ])
      have hlen : ((x :: xs).drop n).length = (x :: xs).length - n := by simp
      have hrec := ih ((x :: xs).drop n).length (by simp; omega) ((x :: xs).drop n) rfl
      rw [hlen] at hrec
      rw [hmap, hrec, chunk_slice_zero, ← List.flatten_append, List.take_append_drop]
      simp

theorem string_mk_append (a b : List Char) :
    (⟨a⟩ : String) ++ (⟨b⟩ : String) = ⟨a ++ b⟩ := rfl

theorem string_join_mk : ∀ (xs : List (List Char)) (acc : List Char),
    List.foldl (fun (r s : String) => r ++ s) ⟨acc⟩ (xs.map (fun l => (⟨l⟩ : String)))
      = ⟨acc ++ xs.flatten⟩ := by
  intro xs
  induction xs with
  | nil => intro acc; simp
  | cons x rest ih =>
    intro acc
    simp only [List.map_cons, List.foldl_cons, string_mk_append, List.flatten_cons]
    rw [ih (acc ++ x), List.append_assoc]

/-- C10: for `n > 0`, chunk `k` written by `split_markdown_file` is
exactly the slice of the file's lines from index `k*n` of length at most
`n` (so every chunk but possibly the last has exactly `n` lines), its
`j`-th line is line `k*n + j` of the input, and the concatenation of all
written chunks in order is the original content. -/
theorem split_markdown_file_partition (content : String) (n : Nat) (hn : 0 < n) :
    (∀ k, (chunk_slice n k (readlinesNL content.data)).length =
        min n ((readlinesNL content.data).length - k * n)) ∧
    (∀ k j, j < n → (chunk_slice n k (readlinesNL content.data)).get? j =
        (readlinesNL content.data).get? (k * n + j)) ∧
    String.join (split_markdown_file content n) = content := by
  refine ⟨?_, ?_, ?_⟩
  · intro k
    simp [chunk_slice]
  · intro k j hj
    unfold chunk_slice
    rw [List.get?_take hj, List.get?_drop]
  · unfold split_markdown_file String.join
    rw [show (List.range (num_chunks n (readlinesNL content.data).length)).map
          (fun k => (⟨(chunk_slice n k (readlinesNL content.data)).flatten⟩ : String))
        = ((List.range (num_chunks n (readlinesNL content.data).length)).map
          (fun k => (chunk_slice n k (readlinesNL content.data)).flatten)).map
            (fun l => (⟨l⟩ : String)) by rw [List.map_map]; rfl]
    have h := string_join_mk ((List.range (num_chunks n (readlinesNL content.data).length)).map
      (fun k => (chunk_slice n k (readlinesNL content.data)).flatten)) []
    simp only [List.nil_append] at h
    rw [show ("" : String) = ⟨[]⟩ from rfl, h, chunk_concat n hn, readlinesNL_flatten]

/-- C10 (witness): splitting five lines two at a time gives chunks of
lines 1-2, 3-4, 5, which concatenate back to the input. -/
theorem split_markdown_file_partition_witness :
    (chunk_slice 2 1 (readlinesNL ("a\nb\nc\nd\ne" : String).data)).get? 0 =
      (readlinesNL ("a\nb\nc\nd\ne" : String).data).get? 2 ∧
    String.join (split_markdown_file "a\nb\nc\nd\ne" 2) = "a\nb\nc\nd\ne" :=
  ⟨(split_markdown_file_partition "a\nb\nc\nd\ne" 2 (by decide)).2.1 1 0 (by decide),
   (split_markdown_file_partition "a\nb\nc\nd\ne" 2 (by decide)).2.2⟩

/-! ### C3: deduplication in the Media Resolver -/

/-- C3 (counterexample): the URL scan produces one list entry per
occurrence — there is no deduplication — and one download task is
submitted per entry (src/main.py lines 201-221), so a document containing
the same remote URL twice fetches it twice and produces up to two local
assets, not "exactly one". -/
theorem media_resolver_no_dedup :
    collect_image_urls "![a](http://e/i.png)\n![b](http://e/i.png)" =
      ["http://e/i.png", "http://e/i.png"] := by
  decide

theorem replaceGo_of_not_contains (pat rep : List Char) (l : List Char)
    (h : containsSub pat l = false) : replaceGo pat rep 0 l = l := by
  induction l with
  | nil => rfl
  | cons c rest ih =>
    rw [containsSub, Bool.or_eq_false_iff] at h
    rw [replaceGo, if_neg (by simp [h.1]), ih h.2]

/-- C3 (amended): a URL occurring several times yields one fetch task per
occurrence, but the replacement loop still rewrites every occurrence to
the same local path: the first collected mapping replaces all occurrences
of the URL, and a second mapping collected for the same URL finds no
occurrence left and has no effect on the text. -/
theorem duplicate_url_second_mapping_inert (doc u f1 f2 : String)
    (hblocks : fcbGo 0 doc.data = [])
    (hgone : containsSub u.data (replaceGo u.data ("images/" ++ f1).data 0 doc.data) = false) :
    process_image_urls_in_md doc [(u, f1), (u, f2)] =
      ⟨replaceGo u.data ("images/" ++ f1).data 0 doc.data⟩ := by
  simp only [process_image_urls_in_md, hblocks, protectBlocks, restoreBlocks,
    List.enum_nil, List.foldl_nil, List.foldl_cons, urlStep]
  rw [replaceGo_of_not_contains _ _ _ hgone]

/-- C3 (witness): both occurrences of the duplicated URL are replaced by
the first collected asset's path; the second collected mapping is unused. -/
theorem duplicate_url_second_mapping_inert_witness :
    process_image_urls_in_md "![a](http://e/i.png)\n![b](http://e/i.png)"
        [("http://e/i.png", "one.jpg"), ("http://e/i.png", "two.jpg")] =
      "![a](images/one.jpg)\n![b](images/one.jpg)" :=
  (duplicate_url_second_mapping_inert "![a](http://e/i.png)\n![b](http://e/i.png)"
      "http://e/i.png" "one.jpg" "two.jpg" (by decide) (by decide)).trans (by decide)

/-! ### C5: order independence of the Media Resolver -/

/-- C5 (counterexample): the final text is *not* independent of the order
in which the `(url, filename)` results are collected.  When one collected
URL is a proper prefix of another (`http://e/a` and `http://e/ab`),
replacing the shorter one first also rewrites the prefix of the longer
one's occurrence, and the two completion orders produce different final
documents. -/
theorem media_resolver_order_dependent :
    process_image_urls_in_md "![x](http://e/a) ![y](http://e/ab)"
        [("http://e/a", "f1.jpg"), ("http://e/ab", "f2.jpg")] ≠
      process_image_urls_in_md "![x](http://e/a) ![y](http://e/ab)"
        [("http://e/ab", "f2.jpg"), ("http://e/a", "f1.jpg")] := by
  decide

/-- C5 (amended): the final text is independent of the completion order
whenever the per-URL replacement steps pairwise commute on texts — which
holds in particular when no collected URL is a substring of another
collected URL or of a replacement path and no URL is collected twice; with
overlapping or duplicated URLs the completion order can change the final
text (see the counterexample). -/
theorem process_image_urls_order_independent (doc : String)
    (l l' : List (String × String)) (hperm : l.Perm l')
    (hcomm : ∀ p ∈ l, ∀ q ∈ l, ∀ t : List Char,
      urlStep (urlStep t p) q = urlStep (urlStep t q) p) :
    process_image_urls_in_md doc l = process_image_urls_in_md doc l' := by
  simp only [process_image_urls_in_md]
  rw [hperm.foldl_eq' hcomm]

/-! #### Commutation of independent replacements

To exercise the order-independence theorem on a genuine reordering, the
commutation hypothesis is established for replacement pairs whose
patterns and replacement paths share no characters: replacing either
first yields the same text as a single simultaneous scan. -/

theorem replaceGo_skip_drop (pat rep : List Char) :
    ∀ (n : Nat) (l : List Char),
      replaceGo pat rep n l = replaceGo pat rep 0 (l.drop n) := by
  intro n
  induction n with
  | zero => intro l; rw [List.drop_zero]
  | succ n ih =>
    intro l
    cases l with
    | nil => rfl
    | cons c rest => rw [replaceGo, List.drop_succ_cons, ih rest]

theorem isPrefixOf_append_self (l t : List Char) : l.isPrefixOf (l ++ t) = true := by
  simp

theorem replaceGo_match (pat rep : List Char) (hpat : pat ≠ []) (t : List Char) :
    replaceGo pat rep 0 (pat ++ t) = rep ++ replaceGo pat rep 0 t := by
  obtain ⟨ph, pt, rfl⟩ : ∃ ph pt, pat = ph :: pt := by
    cases pat with
    | nil => exact absurd rfl hpat
    | cons a as => exact ⟨a, as, rfl⟩
  have hpre : (ph :: pt).isPrefixOf (ph :: (pt ++ t)) = true := by
    rw [← List.cons_append]
    exact isPrefixOf_append_self _ t
  rw [List.cons_append, replaceGo, if_pos hpre, replaceGo_skip_drop,
    show (ph :: pt).length - 1 = pt.length from by simp, List.drop_left]

theorem replaceGo_not_match_cons (pat rep : List Char) (c : Char) (rest : List Char)
    (h : pat.isPrefixOf (c :: rest) = false) :
    replaceGo pat rep 0 (c :: rest) = c :: replaceGo pat rep 0 rest := by
  rw [replaceGo, if_neg (by simp [h])]

theorem replaceGo_copy_head_seg (pat rep : List Char) (ph : Char)
    (hph : pat.head? = some ph) :
    ∀ (xs : List Char), (∀ c ∈ xs, c ≠ ph) → ∀ (ys : List Char),
      replaceGo pat rep 0 (xs ++ ys) = xs ++ replaceGo pat rep 0 ys := by
  obtain ⟨pt, rfl⟩ : ∃ pt, pat = ph :: pt := by
    cases pat with
    | nil => simp at hph
    | cons a as =>
      simp only [List.head?_cons, Option.some.injEq] at hph
      exact ⟨as, by rw [hph]⟩
  intro xs
  induction xs with
  | nil => intro _ ys; rfl
  | cons x xs ih =>
    intro hxs ys
    have hx : x ≠ ph := hxs x (List.mem_cons_self x xs)
    have hpref : (ph :: pt).isPrefixOf (x :: (xs ++ ys)) = false := by
      rw [List.isPrefixOf_cons₂]
      simp [beq_eq_false_iff_ne.mpr (Ne.symm hx)]
    rw [List.cons_append, replaceGo_not_match_cons _ _ _ _ hpref,
      ih (fun c hc => hxs c (List.mem_cons_of_mem x hc)) ys, List.cons_append]

/-- A replacement with a nonempty output that avoids the characters of `q`
never creates a new occurrence of `q` at the front: if `q` was not a
prefix of the text, it is not a prefix of the rewritten text. -/
theorem replaceGo_no_new_prefix (pat rep : List Char) (hrep : rep ≠ []) :
    ∀ (t q : List Char), q ≠ [] → (∀ c ∈ q, c ∉ rep) →
      q.isPrefixOf t = false → q.isPrefixOf (replaceGo pat rep 0 t) = false := by
  intro t
  induction t with
  | nil =>
    intro q hq _ _
    obtain ⟨d, qt, rfl⟩ : ∃ d qt, q = d :: qt := by
      cases q with
      | nil => exact absurd rfl hq
      | cons a as => exact ⟨a, as, rfl⟩
    rfl
  | cons c t3 ih =>
    intro q hq hqrep hfalse
    obtain ⟨d, qt, rfl⟩ : ∃ d qt, q = d :: qt := by
      cases q with
      | nil => exact absurd rfl hq
      | cons a as => exact ⟨a, as, rfl⟩
    by_cases hm : pat.isPrefixOf (c :: t3) = true
    · rw [replaceGo, if_pos hm]
      obtain ⟨r0, rrest, rfl⟩ : ∃ r0 rrest, rep = r0 :: rrest := by
        cases rep with
        | nil => exact absurd rfl hrep
        | cons a as => exact ⟨a, as, rfl⟩
      have hd : d ≠ r0 :=
        fun h => hqrep d (List.mem_cons_self d qt) (h ▸ List.mem_cons_self r0 rrest)
      rw [List.cons_append, List.isPrefixOf_cons₂]
      simp [beq_eq_false_iff_ne.mpr hd]
    · rw [replaceGo_not_match_cons _ _ _ _ (Bool.eq_false_iff.mpr hm)]
      rw [List.isPrefixOf_cons₂] at hfalse ⊢
      by_cases hdc : (d == c) = true
      · simp only [hdc, Bool.true_and] at hfalse ⊢
        have hqt : qt ≠ [] := by
          intro h
          subst h
          simp at hfalse
        exact ih qt hqt (fun x hx => hqrep x (List.mem_cons_of_mem d hx)) hfalse
      · simp only [Bool.not_eq_true] at hdc
        simp [hdc]

/-- Proof device: a single scan applying both replacements simultaneously,
the first pattern taking precedence.  When the two patterns share no
characters at most one of them can match at a position, and applying the
two replacements one after the other (in either order) agrees with this
scan. -/
def replace2Go (p1 r1 p2 r2 : List Char) : Nat → List Char → List Char
  | skip+1, _ :: rest => replace2Go p1 r1 p2 r2 skip rest
  | _, [] => []
  | 0, c :: rest =>
    if p1.isPrefixOf (c :: rest) then r1 ++ replace2Go p1 r1 p2 r2 (p1.length - 1) rest
    else if p2.isPrefixOf (c :: rest) then r2 ++ replace2Go p1 r1 p2 r2 (p2.length - 1) rest
    else c :: replace2Go p1 r1 p2 r2 0 rest

theorem replace2Go_skip_drop (p1 r1 p2 r2 : List Char) :
    ∀ (n : Nat) (l : List Char),
      replace2Go p1 r1 p2 r2 n l = replace2Go p1 r1 p2 r2 0 (l.drop n) := by
  intro n
  induction n with
  | zero => intro l; rw [List.drop_zero]
  | succ n ih =>
    intro l
    cases l with
    | nil => rfl
    | cons c rest => rw [replace2Go, List.drop_succ_cons, ih rest]

theorem replace2Go_match1 (p1 r1 p2 r2 : List Char) (hp1 : p1 ≠ []) (t : List Char) :
    replace2Go p1 r1 p2 r2 0 (p1 ++ t) = r1 ++ replace2Go p1 r1 p2 r2 0 t := by
  obtain ⟨ph, pt, rfl⟩ : ∃ ph pt, p1 = ph :: pt := by
    cases p1 with
    | nil => exact absurd rfl hp1
    | cons a as => exact ⟨a, as, rfl⟩
  have hpre : (ph :: pt).isPrefixOf (ph :: (pt ++ t)) = true := by
    rw [← List.cons_append]
    exact isPrefixOf_append_self _ t
  rw [List.cons_append, replace2Go, if_pos hpre, replace2Go_skip_drop,
    show (ph :: pt).length - 1 = pt.length from by simp, List.drop_left]

theorem replace2Go_match2 (p1 r1 p2 r2 : List Char) (hp2 : p2 ≠ []) (t : List Char)
    (hm1 : p1.isPrefixOf (p2 ++ t) = false) :
    replace2Go p1 r1 p2 r2 0 (p2 ++ t) = r2 ++ replace2Go p1 r1 p2 r2 0 t := by
  obtain ⟨ph, pt, rfl⟩ : ∃ ph pt, p2 = ph :: pt := by
    cases p2 with
    | nil => exact absurd rfl hp2
    | cons a as => exact ⟨a, as, rfl⟩
  have hpre : (ph :: pt).isPrefixOf (ph :: (pt ++ t)) = true := by
    rw [← List.cons_append]
    exact isPrefixOf_append_self _ t
  rw [List.cons_append] at hm1
  rw [List.cons_append, replace2Go, if_neg (by simp [hm1]), if_pos hpre,
    replace2Go_skip_drop, show (ph :: pt).length - 1 = pt.length from by simp,
    List.drop_left]

theorem replace2Go_none (p1 r1 p2 r2 : List Char) (c : Char) (rest : List Char)
    (hm1 : p1.isPrefixOf (c :: rest) = false) (hm2 : p2.isPrefixOf (c :: rest) = false) :
    replace2Go p1 r1 p2 r2 0 (c :: rest) = c :: replace2Go p1 r1 p2 r2 0 rest := by
  rw [replace2Go, if_neg (by simp [hm1]), if_neg (by simp [hm2])]

/-- Applying the first replacement and then the second equals the
simultaneous scan, provided the second pattern is character-disjoint from
the first pattern and the first replacement path. -/
theorem replace_pair_eq_replace2 (p1 r1 p2 r2 : List Char)
    (hp1 : p1 ≠ []) (hp2 : p2 ≠ []) (hr1 : r1 ≠ [])
    (h2r1 : ∀ c ∈ p2, c ∉ r1) (h1p2 : ∀ c ∈ p1, c ∉ p2) :
    ∀ (n : Nat) (t : List Char), t.length ≤ n →
      replaceGo p2 r2 0 (replaceGo p1 r1 0 t) = replace2Go p1 r1 p2 r2 0 t := by
  intro n
  induction n with
  | zero =>
    intro t hl
    have hnil : t = [] := List.eq_nil_of_length_eq_zero (Nat.le_zero.mp hl)
    subst hnil
    rfl
  | succ n ih =>
    intro t hl
    cases t with
    | nil => rfl
    | cons c t3 =>
      by_cases hm1 : p1.isPrefixOf (c :: t3) = true
      · obtain ⟨t1, ht1⟩ : ∃ t1, p1 ++ t1 = c :: t3 :=
          List.isPrefixOf_iff_prefix.mp hm1
        obtain ⟨q0, qt, hq0⟩ : ∃ q0 qt, p2 = q0 :: qt := by
          cases p2 with
          | nil => exact absurd rfl hp2
          | cons a as => exact ⟨a, as, rfl⟩
        have hr1q0 : ∀ x ∈ r1, x ≠ q0 := fun x hx heq =>
          h2r1 q0 (hq0 ▸ List.mem_cons_self q0 qt) (heq ▸ hx)
        have ht1len : t1.length ≤ n := by
          have hlen := congrArg List.length ht1
          simp only [List.length_append, List.length_cons] at hlen
          have hp1len : 0 < p1.length := List.length_pos.mpr hp1
          simp only [List.length_cons] at hl
          omega
        rw [← ht1, replaceGo_match p1 r1 hp1,
          replaceGo_copy_head_seg p2 r2 q0 (by rw [hq0]; rfl) r1 hr1q0
            (replaceGo p1 r1 0 t1),
          replace2Go_match1 p1 r1 p2 r2 hp1, ih t1 ht1len]
      · by_cases hm2 : p2.isPrefixOf (c :: t3) = true
        · obtain ⟨t2, ht2⟩ : ∃ t2, p2 ++ t2 = c :: t3 :=
            List.isPrefixOf_iff_prefix.mp hm2
          obtain ⟨a0, at', ha0⟩ : ∃ a0 at', p1 = a0 :: at' := by
            cases p1 with
            | nil => exact absurd rfl hp1
            | cons a as => exact ⟨a, as, rfl⟩
          have hp2a0 : ∀ x ∈ p2, x ≠ a0 := fun x hx heq =>
            h1p2 a0 (ha0 ▸ List.mem_cons_self a0 at') (heq ▸ hx)
          have ht2len : t2.length ≤ n := by
            have hlen := congrArg List.length ht2
            simp only [List.length_append, List.length_cons] at hlen
            have hp2len : 0 < p2.length := List.length_pos.mpr hp2
            simp only [List.length_cons] at hl
            omega
          have hm1' : p1.isPrefixOf (p2 ++ t2) = false := by
            rw [ht2]
            exact Bool.eq_false_iff.mpr hm1
          rw [← ht2,
            replaceGo_copy_head_seg p1 r1 a0 (by rw [ha0]; rfl) p2 hp2a0 t2,
            replaceGo_match p2 r2 hp2, replace2Go_match2 p1 r1 p2 r2 hp2 t2 hm1',
            ih t2 ht2len]
        · have hm1' : p1.isPrefixOf (c :: t3) = false := Bool.eq_false_iff.mpr hm1
          have hm2' : p2.isPrefixOf (c :: t3) = false := Bool.eq_false_iff.mpr hm2
          have hnc := replaceGo_no_new_prefix p1 r1 hr1 (c :: t3) p2 hp2 h2r1 hm2'
          rw [replaceGo_not_match_cons p1 r1 c t3 hm1'] at hnc
          have ht3len : t3.length ≤ n := by
            simp only [List.length_cons] at hl
            omega
          rw [replaceGo_not_match_cons p1 r1 c t3 hm1',
            replaceGo_not_match_cons p2 r2 c _ hnc,
            replace2Go_none p1 r1 p2 r2 c t3 hm1' hm2', ih t3 ht3len]

/-- The simultaneous scan is symmetric in its two replacements when the
patterns share no characters. -/
theorem replace2Go_comm (p1 r1 p2 r2 : List Char)
    (hp1 : p1 ≠ []) (hp2 : p2 ≠ []) (h1p2 : ∀ c ∈ p1, c ∉ p2) :
    ∀ (n : Nat) (t : List Char), t.length ≤ n →
      replace2Go p1 r1 p2 r2 0 t = replace2Go p2 r2 p1 r1 0 t := by
  intro n
  induction n with
  | zero =>
    intro t hl
    have hnil : t = [] := List.eq_nil_of_length_eq_zero (Nat.le_zero.mp hl)
    subst hnil
    rfl
  | succ n ih =>
    intro t hl
    cases t with
    | nil => rfl
    | cons c t3 =>
      have ht3len : t3.length ≤ n := by
        simp only [List.length_cons] at hl
        omega
      have hboth : ¬(p1.isPrefixOf (c :: t3) = true ∧ p2.isPrefixOf (c :: t3) = true) := by
        rintro ⟨h1, h2⟩
        obtain ⟨a0, at', rfl⟩ : ∃ a0 at', p1 = a0 :: at' := by
          cases p1 with
          | nil => exact absurd rfl hp1
          | cons a as => exact ⟨a, as, rfl⟩
        obtain ⟨b0, bt, rfl⟩ : ∃ b0 bt, p2 = b0 :: bt := by
          cases p2 with
          | nil => exact absurd rfl hp2
          | cons a as => exact ⟨a, as, rfl⟩
        rw [List.isPrefixOf_cons₂, Bool.and_eq_true, beq_iff_eq] at h1 h2
        exact h1p2 a0 (List.mem_cons_self a0 at')
          (h1.1 ▸ h2.1 ▸ List.mem_cons_self b0 bt)
      by_cases hm1 : p1.isPrefixOf (c :: t3) = true
      · have hm2 : p2.isPrefixOf (c :: t3) = false := by
          cases hb : p2.isPrefixOf (c :: t3) with
          | false => rfl
          | true => exact absurd ⟨hm1, hb⟩ hboth
        have hdlen : (t3.drop (p1.length - 1)).length ≤ n := by
          rw [List.length_drop]
          omega
        simp only [replace2Go]
        rw [if_pos hm1, if_neg (by simp [hm2]), if_pos hm1,
          replace2Go_skip_drop p1 r1 p2 r2, replace2Go_skip_drop p2 r2 p1 r1,
          ih (t3.drop (p1.length - 1)) hdlen]
      · by_cases hm2 : p2.isPrefixOf (c :: t3) = true
        · have hm1' : p1.isPrefixOf (c :: t3) = false := Bool.eq_false_iff.mpr hm1
          have hdlen : (t3.drop (p2.length - 1)).length ≤ n := by
            rw [List.length_drop]
            omega
          simp only [replace2Go]
          rw [if_neg (by simp [hm1']), if_pos hm2, if_pos hm2,
            replace2Go_skip_drop p1 r1 p2 r2, replace2Go_skip_drop p2 r2 p1 r1,
            ih (t3.drop (p2.length - 1)) hdlen]
        · have hm1' : p1.isPrefixOf (c :: t3) = false := Bool.eq_false_iff.mpr hm1
          have hm2' : p2.isPrefixOf (c :: t3) = false := Bool.eq_false_iff.mpr hm2
          rw [replace2Go_none p1 r1 p2 r2 c t3 hm1' hm2',
            replace2Go_none p2 r2 p1 r1 c t3 hm2' hm1', ih t3 ht3len]

/-- Two collected results whose URLs and replacement paths share no
characters commute on every text: replacing in either order gives the
same document. -/
theorem urlStep_comm_of_disjoint (p q : String × String)
    (hp : p.1.data ≠ []) (hq : q.1.data ≠ [])
    (hrp : ("images/" ++ p.2).data ≠ []) (hrq : ("images/" ++ q.2).data ≠ [])
    (hqp : ∀ c ∈ q.1.data, c ∉ p.1.data)
    (hpq : ∀ c ∈ p.1.data, c ∉ q.1.data)
    (hqrp : ∀ c ∈ q.1.data, c ∉ ("images/" ++ p.2).data)
    (hprq : ∀ c ∈ p.1.data, c ∉ ("images/" ++ q.2).data)
    (t : List Char) :
    urlStep (urlStep t p) q = urlStep (urlStep t q) p := by
  unfold urlStep
  rw [replace_pair_eq_replace2 p.1.data ("images/" ++ p.2).data q.1.data
      ("images/" ++ q.2).data hp hq hrp hqrp hpq t.length t le_rfl,
    replace_pair_eq_replace2 q.1.data ("images/" ++ q.2).data p.1.data
      ("images/" ++ p.2).data hq hp hrq hprq hqp t.length t le_rfl,
    replace2Go_comm p.1.data ("images/" ++ p.2).data q.1.data ("images/" ++ q.2).data
      hp hq hpq t.length t le_rfl]

/-- C5 (witness): a genuine reordering of two distinct collected results
with character-disjoint URLs and paths: both completion orders produce the
same document, namely `"see images/1.jpg and images/2.jpg end"` for the
document `"see AAA and BBB end"`. -/
theorem process_image_urls_order_independent_witness :
    process_image_urls_in_md "see AAA and BBB end"
        [("AAA", "1.jpg"), ("BBB", "2.jpg")] =
      process_image_urls_in_md "see AAA and BBB end"
        [("BBB", "2.jpg"), ("AAA", "1.jpg")] ∧
    process_image_urls_in_md "see AAA and BBB end"
        [("AAA", "1.jpg"), ("BBB", "2.jpg")] = "see images/1.jpg and images/2.jpg end" :=
  ⟨process_image_urls_order_independent "see AAA and BBB end"
    [("AAA", "1.jpg"), ("BBB", "2.jpg")] [("BBB", "2.jpg"), ("AAA", "1.jpg")]
    (by decide)
    (fun p hp q hq t => by
      simp only [List.mem_cons, List.not_mem_nil, or_false] at hp hq
      rcases hp with rfl | rfl <;> rcases hq with rfl | rfl
      · rfl
      · exact urlStep_comm_of_disjoint ("AAA", "1.jpg") ("BBB", "2.jpg")
          (by decide) (by decide) (by decide) (by decide)
          (by decide) (by decide) (by decide) (by decide) t
      · exact urlStep_comm_of_disjoint ("BBB", "2.jpg") ("AAA", "1.jpg")
          (by decide) (by decide) (by decide) (by decide)
          (by decide) (by decide) (by decide) (by decide) t
      · rfl),
   by decide⟩

/-! ### C8: a fragment failure is contained -/

theorem string_empty_append (s : String) : "" ++ s = s := by
  cases s
  rfl

theorem string_append_assoc (a b c : String) : a ++ b ++ c = a ++ (b ++ c) := by
  cases a
  cases b
  cases c
  show (⟨_ ++ _ ++ _⟩ : String) = ⟨_ ++ (_ ++ _)⟩
  rw [List.append_assoc]

theorem process_list_append (cwd : String) (level : Nat) (xs ys : List Entry) :
    process_list cwd level (xs ++ ys) =
      process_list cwd level xs ++ process_list cwd level ys := by
  induction xs with
  | nil =>
    rw [List.nil_append, show process_list cwd level [] = "" by simp [process_list],
      string_empty_append]
  | cons e rest ih =>
    cases e with
    | dir name children =>
      simp only [List.cons_append, process_list]
      rw [ih]
      exact (string_append_assoc _ _ _).symm
    | file name raw =>
      simp only [List.cons_append, process_list]
      rw [ih]
      exact (string_append_assoc _ _ _).symm

/-- C8: when a fragment's read (or conversion) fails, the walk emits the
fragment's heading followed by the visible inline error marker in place of
that section, and the rest of the listing is still assembled exactly as it
would have been: the composite splits around the failed entry. -/
theorem include_failure_contained (cwd : String) (level : Nat) (pre post : List Entry)
    (name e : String) (hskip : nameSkipped name = false)
    (helig : isEligibleFile name = true) :
    process_list cwd level (pre ++ Entry.file name (Except.error e) :: post) =
      process_list cwd level pre ++
        ((⟨List.replicate (level + 1) '#'⟩ : String) ++ " " ++
          (⟨splitext_root name.data⟩ : String) ++ "\n\n" ++
          ("*[Error processing file: " ++ (cwd ++ "/" ++ name) ++ "]*\n") ++ "\n\n") ++
      process_list cwd level post := by
  rw [process_list_append]
  have hsec : process_list cwd level (Entry.file name (Except.error e) :: post)
      = ((⟨List.replicate (level + 1) '#'⟩ : String) ++ " " ++
          (⟨splitext_root name.data⟩ : String) ++ "\n\n" ++
          ("*[Error processing file: " ++ (cwd ++ "/" ++ name) ++ "]*\n") ++ "\n\n") ++
        process_list cwd level post := by
    simp only [process_list, hskip, helig, include_content, Bool.false_eq_true,
      if_false, if_true]
  rw [hsec]
  exact (string_append_assoc _ _ _).symm

/-- C8 (witness): a failing middle fragment leaves the first and last
fragments assembled around its inline error marker. -/
theorem include_failure_contained_witness :
    process_list "/root" 0
        ([Entry.file "a.md" (Except.ok "hi")] ++
          Entry.file "b.md" (Except.error "io error") :: [Entry.file "c.md" (Except.ok "yo")]) =
      process_list "/root" 0 [Entry.file "a.md" (Except.ok "hi")] ++
        ((⟨List.replicate (0 + 1) '#'⟩ : String) ++ " " ++
          (⟨splitext_root ("b.md" : String).data⟩ : String) ++ "\n\n" ++
          ("*[Error processing file: " ++ ("/root" ++ "/" ++ "b.md") ++ "]*\n") ++ "\n\n") ++
      process_list "/root" 0 [Entry.file "c.md" (Except.ok "yo")] :=
  include_failure_contained "/root" 0 [Entry.file "a.md" (Except.ok "hi")]
    [Entry.file "c.md" (Except.ok "yo")] "b.md" "io error" (by decide) (by decide)

/-! ### C2 (amended): the third rewrite, `escape_img_tags`, is idempotent

The proof analyses the scanner: a replaced span starts `&lt;` and ends
`>`, a skipped span is preserved together with its blocking context
(backtick before, or backtick after the `>`), so a second scan finds no
match. -/

/-- The last character of `prev ++ xs` seen by the scanner, as an option:
the lookbehind context after consuming `xs`. -/
def lastPrev (prev : Option Char) : List Char → Option Char
  | [] => prev
  | c :: rest => lastPrev (some c) rest

theorem lastPrev_append_last (prev : Option Char) (xs : List Char) (c : Char) :
    lastPrev prev (xs ++ [c]) = some c := by
  induction xs generalizing prev with
  | nil => rfl
  | cons x xs ih => exact ih (some x)

theorem drop_length_takeWhile (p : Char → Bool) :
    ∀ l : List Char, l.drop (l.takeWhile p).length = l.dropWhile p := by
  intro l
  induction l with
  | nil => rfl
  | cons c rest ih =>
    by_cases hp : p c
    · simp [List.takeWhile_cons, List.dropWhile_cons, hp, ih]
    · simp [List.takeWhile_cons, List.dropWhile_cons, hp]

theorem takeWhile_append_not (p : Char → Bool) (ws : List Char) (h : Char)
    (t : List Char) (hws : ∀ c ∈ ws, p c = true) (hh : p h = false) :
    (ws ++ h :: t).takeWhile p = ws := by
  induction ws with
  | nil => simp [List.takeWhile_cons, hh]
  | cons w ws ih =>
    have hw := hws w (List.mem_cons_self w ws)
    simp only [List.cons_append, List.takeWhile_cons, hw, if_true]
    rw [ih fun c hc => hws c (List.mem_cons_of_mem w hc)]

theorem pyIsSpace_ne_lt {c : Char} (h : pyIsSpace c = true) : c ≠ '<' := by
  intro hc
  subst hc
  simp [pyIsSpace] at h

theorem pyIsSpace_amp : pyIsSpace '&' = false := by decide

/-- One scanner step at a character that cannot open a match. -/
theorem escapeGo_cons_ne (prev : Option Char) (c : Char) (rest : List Char)
    (hc : c ≠ '<') :
    escapeGo prev 0 (c :: rest) = c :: escapeGo (some c) 0 rest := by
  rw [escapeGo]
  simp [hc]

/-- One scanner step when the lookbehind blocks. -/
theorem escapeGo_cons_backtick (c : Char) (rest : List Char) :
    escapeGo (some '`') 0 (c :: rest) = c :: escapeGo (some c) 0 rest := by
  rw [escapeGo]
  simp

/-- The scanner's output at a cons starts with the same character or with
the `&` of a replacement. -/
theorem escapeGo_head (prev : Option Char) (c : Char) (rest : List Char) :
    ∃ t, escapeGo prev 0 (c :: rest) = c :: t ∨
      escapeGo prev 0 (c :: rest) = '&' :: t := by
  rw [escapeGo]
  by_cases hcond : c = '<' ∧ prev ≠ some '`'
  · rcases hm : matchImgLen (c :: rest) with _ | k
    · exact ⟨escapeGo (some c) 0 rest, Or.inl (by simp [hcond.1, hcond.2, hm])⟩
    · exact ⟨'l' :: 't' :: ';' :: escapeGo (some '>') (k - 1) rest,
        Or.inr (by simp [hcond.1, hcond.2, hm])⟩
  · refine ⟨escapeGo (some c) 0 rest, Or.inl ?_⟩
    rcases (not_and_or.mp hcond) with hc | hp
    · simp [hc]
    · simp only [ne_eq, not_not] at hp
      simp [hp]

/-- Skip elimination: a pending copy of `n` characters is the same as
emitting them verbatim and rescanning the remainder. -/
theorem escapeGo_skip (prev : Option Char) :
    ∀ (n : Nat) (l : List Char),
      escapeGo prev n l = l.take n ++ escapeGo prev 0 (l.drop n) := by
  intro n
  induction n with
  | zero => intro l; simp
  | succ n ih =>
    intro l
    cases l with
    | nil => simp [escapeGo]
    | cons c rest =>
      rw [escapeGo, List.take_succ_cons, List.drop_succ_cons, List.cons_append, ih rest]

/-- Copy-through: characters that cannot open a match are emitted
verbatim, the lookbehind context advancing over them. -/
theorem escapeGo_copy (prev : Option Char) (xs ys : List Char)
    (hxs : ∀ c ∈ xs, c ≠ '<') :
    escapeGo prev 0 (xs ++ ys) = xs ++ escapeGo (lastPrev prev xs) 0 ys := by
  induction xs generalizing prev with
  | nil => rfl
  | cons x xs ih =>
    have hx := hxs x (List.mem_cons_self x xs)
    rw [List.cons_append, escapeGo_cons_ne _ _ _ hx,
      ih (some x) fun c hc => hxs c (List.mem_cons_of_mem x hc)]
    rfl

theorem matchImgLen_fail1 (x : Char) (l : List Char) (hx : ¬(x = 'i' ∨ x = 'I')) :
    matchImgLen ('<' :: x :: l) = none := by
  rcases l with _ | ⟨y, _ | ⟨z, l3⟩⟩
  · rfl
  · rfl
  · rw [matchImgLen]
    rw [if_neg]
    simp only [Bool.and_eq_true, Bool.or_eq_true, decide_eq_true_eq]
    rintro ⟨⟨hx' | hx', _⟩, _⟩ <;> exact hx (by simp [hx'])

theorem matchImgLen_fail2 (x y : Char) (l : List Char) (hy : ¬(y = 'm' ∨ y = 'M')) :
    matchImgLen ('<' :: x :: y :: l) = none := by
  rcases l with _ | ⟨z, l3⟩
  · rfl
  · rw [matchImgLen]
    rw [if_neg]
    simp only [Bool.and_eq_true, Bool.or_eq_true, decide_eq_true_eq]
    rintro ⟨⟨_, hy' | hy'⟩, _⟩ <;> exact hy (by simp [hy'])

theorem matchImgLen_fail3 (x y z : Char) (l : List Char) (hz : ¬(z = 'g' ∨ z = 'G')) :
    matchImgLen ('<' :: x :: y :: z :: l) = none := by
  rw [matchImgLen]
  rw [if_neg]
  simp only [Bool.and_eq_true, Bool.or_eq_true, decide_eq_true_eq]
  rintro ⟨_, hz' | hz'⟩ <;> exact hz (by simp [hz'])

theorem takeWhile_all (p : Char → Bool) : ∀ (l : List Char),
    (∀ c ∈ l, p c = true) → l.takeWhile p = l := by
  intro l
  induction l with
  | nil => intro _; rfl
  | cons c rest ih =>
    intro h
    rw [List.takeWhile_cons, if_pos (h c (List.mem_cons_self c rest)),
      ih fun x hx => h x (List.mem_cons_of_mem c hx)]

theorem dropWhile_cons_head (p : Char → Bool) : ∀ (l : List Char) (d : Char)
    (r : List Char), l.dropWhile p = d :: r → p d = false := by
  intro l
  induction l with
  | nil => intro d r h; simp at h
  | cons c rest ih =>
    intro d r h
    rw [List.dropWhile_cons] at h
    by_cases hc : p c
    · rw [if_pos hc] at h
      exact ih d r h
    · rw [if_neg hc] at h
      cases h
      simpa using hc

/-- A successful `matchImgLen` exposes the matched span's shape. -/
theorem matchImgLen_some (l : List Char) (k : Nat) (h : matchImgLen l = some k) :
    ∃ c1 c2 c3 ws rest',
      l = '<' :: c1 :: c2 :: c3 :: (ws ++ '>' :: rest') ∧ k = 5 + ws.length ∧
      c1 ≠ '<' ∧ c2 ≠ '<' ∧ c3 ≠ '<' ∧
      (∀ c ∈ ws, pyIsSpace c = true) ∧ rest'.head? ≠ some '`' := by
  unfold matchImgLen at h
  split at h
  · rename_i c1 c2 c3 rest
    split at h
    · rename_i hcond
      simp only [Bool.and_eq_true, Bool.or_eq_true, decide_eq_true_eq] at hcond
      simp only [] at h
      split at h
      · rename_i after heq
        split at h
        · simp at h
        · rename_i hnb
          injection h with hk
          have hrest : rest = rest.takeWhile pyIsSpace ++ '>' :: after := by
            conv_lhs => rw [← List.takeWhile_append_dropWhile (p := pyIsSpace) (l := rest)]
            rw [← drop_length_takeWhile pyIsSpace rest, heq]
          refine ⟨c1, c2, c3, rest.takeWhile pyIsSpace, after,
            by rw [← hrest], hk.symm, ?_, ?_, ?_,
            fun c hc => List.mem_takeWhile_imp hc, hnb⟩
          · rcases hcond.1.1 with rfl | rfl <;> decide
          · rcases hcond.1.2 with rfl | rfl <;> decide
          · rcases hcond.2 with rfl | rfl <;> decide
      · simp at h
    · simp at h
  · simp at h

/-- Evaluation of the matcher when the blanks run is followed by a
non-blank character other than `>`: no match, whatever the tag letters. -/
theorem matchImgLen_after_ws_not_gt (c1 c2 c3 : Char) (ws : List Char) (x : Char)
    (t : List Char) (hws : ∀ c ∈ ws, pyIsSpace c = true) (hx : pyIsSpace x = false)
    (hxgt : x ≠ '>') :
    matchImgLen ('<' :: c1 :: c2 :: c3 :: (ws ++ x :: t)) = none := by
  rw [matchImgLen]
  split
  · simp only []
    rw [takeWhile_append_not pyIsSpace ws x t hws hx, List.drop_left]
    split
    · rename_i heq
      cases heq
      exact absurd rfl hxgt
    · rfl
  · rfl

/-- Evaluation of the matcher when the `>` is followed by a backtick: the
lookahead blocks. -/
theorem matchImgLen_after_ws_backtick (c1 c2 c3 : Char) (ws t : List Char)
    (hws : ∀ c ∈ ws, pyIsSpace c = true) :
    matchImgLen ('<' :: c1 :: c2 :: c3 :: (ws ++ '>' :: '`' :: t)) = none := by
  rw [matchImgLen]
  split
  · simp only []
    rw [takeWhile_append_not pyIsSpace ws '>' ('`' :: t) hws (by decide), List.drop_left]
    rfl
  · rfl

/-- Evaluation of the matcher when everything after the tag letters is
blanks: no closing `>`, no match. -/
theorem matchImgLen_all_ws (c1 c2 c3 : Char) (ws : List Char)
    (hws : ∀ c ∈ ws, pyIsSpace c = true) :
    matchImgLen ('<' :: c1 :: c2 :: c3 :: ws) = none := by
  rw [matchImgLen]
  split
  · simp only []
    rw [takeWhile_all pyIsSpace ws hws, List.drop_length]
  · rfl

/-- Evaluation of the matcher on a full match shape. -/
theorem matchImgLen_ws_gt (c1 c2 c3 : Char) (ws r4 : List Char)
    (h1 : c1 = 'i' ∨ c1 = 'I') (h2 : c2 = 'm' ∨ c2 = 'M') (h3 : c3 = 'g' ∨ c3 = 'G')
    (hws : ∀ c ∈ ws, pyIsSpace c = true) (hnb : r4.head? ≠ some '`') :
    matchImgLen ('<' :: c1 :: c2 :: c3 :: (ws ++ '>' :: r4)) = some (5 + ws.length) := by
  rw [matchImgLen, if_pos
    (by rcases h1 with rfl | rfl <;> rcases h2 with rfl | rfl <;>
        rcases h3 with rfl | rfl <;> rfl)]
  simp only []
  rw [takeWhile_append_not pyIsSpace ws '>' r4 hws (by decide), List.drop_left]
  simp [hnb]

theorem escapeGo_all_copy (prev : Option Char) (xs : List Char)
    (hxs : ∀ c ∈ xs, c ≠ '<') : escapeGo prev 0 xs = xs := by
  have h := escapeGo_copy prev xs [] hxs
  rw [show escapeGo (lastPrev prev xs) 0 ([] : List Char) = [] from rfl,
    List.append_nil] at h
  exact h

/-- If the matcher fails at a `<`, it still fails there after the rest of
the text has been rewritten by the scanner: a failed match position stays
failed on a second pass. -/
theorem matchImgLen_none_preserved (rest : List Char)
    (h : matchImgLen ('<' :: rest) = none) :
    matchImgLen ('<' :: escapeGo (some '<') 0 rest) = none := by
  rcases rest with _ | ⟨c1, r1⟩
  · rfl
  by_cases h1 : c1 = 'i' ∨ c1 = 'I'
  case neg =>
    obtain ⟨t, ht | ht⟩ := escapeGo_head (some '<') c1 r1 <;> rw [ht]
    · exact matchImgLen_fail1 c1 t h1
    · exact matchImgLen_fail1 '&' t (by decide)
  case pos =>
  have hc1 : c1 ≠ '<' := by rcases h1 with rfl | rfl <;> decide
  rw [escapeGo_cons_ne _ _ _ hc1]
  rcases r1 with _ | ⟨c2, r2⟩
  · rfl
  by_cases h2 : c2 = 'm' ∨ c2 = 'M'
  case neg =>
    obtain ⟨t, ht | ht⟩ := escapeGo_head (some c1) c2 r2 <;> rw [ht]
    · exact matchImgLen_fail2 c1 c2 t h2
    · exact matchImgLen_fail2 c1 '&' t (by decide)
  case pos =>
  have hc2 : c2 ≠ '<' := by rcases h2 with rfl | rfl <;> decide
  rw [escapeGo_cons_ne _ _ _ hc2]
  rcases r2 with _ | ⟨c3, r3⟩
  · rfl
  by_cases h3 : c3 = 'g' ∨ c3 = 'G'
  case neg =>
    obtain ⟨t, ht | ht⟩ := escapeGo_head (some c2) c3 r3 <;> rw [ht]
    · exact matchImgLen_fail3 c1 c2 c3 t h3
    · exact matchImgLen_fail3 c1 c2 '&' t (by decide)
  case pos =>
  have hc3 : c3 ≠ '<' := by rcases h3 with rfl | rfl <;> decide
  rw [escapeGo_cons_ne _ _ _ hc3]
  -- the tag letters are right in both passes; the failure lies in the
  -- blanks-and-`>` part `r3`, which the scanner copies essentially verbatim
  have hws : ∀ c ∈ r3.takeWhile pyIsSpace, pyIsSpace c = true :=
    fun c hc => List.mem_takeWhile_imp hc
  have hwsne : ∀ c ∈ r3.takeWhile pyIsSpace, c ≠ '<' :=
    fun c hc => pyIsSpace_ne_lt (hws c hc)
  have hdecomp : r3 = r3.takeWhile pyIsSpace ++ r3.dropWhile pyIsSpace :=
    (List.takeWhile_append_dropWhile pyIsSpace r3).symm
  rcases hdw : r3.dropWhile pyIsSpace with _ | ⟨d, r4⟩
  · -- `r3` is blanks only: the scanner copies it, and the match still
    -- fails for want of a `>`
    have hr3 : r3 = r3.takeWhile pyIsSpace := by
      conv_lhs => rw [hdecomp, hdw]
      rw [List.append_nil]
    have hcopy : escapeGo (some c3) 0 r3 = r3 :=
      escapeGo_all_copy _ _ fun c hc => hwsne c (hr3 ▸ hc)
    rw [hcopy]
    exact h
  · have hd : pyIsSpace d = false := dropWhile_cons_head pyIsSpace r3 d r4 hdw
    by_cases hdgt : d = '>'
    · subst hdgt
      -- a `>` follows the blanks, so the original failure must be the
      -- lookahead: a backtick right after the `>`
      have hback : r4.head? = some '`' := by
        by_contra hnb
        rw [hdecomp, hdw] at h
        rw [matchImgLen_ws_gt c1 c2 c3 _ r4 h1 h2 h3 hws hnb] at h
        simp at h
      obtain ⟨r5, rfl⟩ : ∃ r5, r4 = '`' :: r5 := by
        cases r4 with
        | nil => simp at hback
        | cons a r5 =>
          simp only [List.head?_cons, Option.some.injEq] at hback
          exact ⟨r5, by rw [hback]⟩
      have hout : escapeGo (some c3) 0 r3
          = r3.takeWhile pyIsSpace ++ '>' :: '`' :: escapeGo (some '`') 0 r5 := by
        conv_lhs => rw [hdecomp, hdw]
        rw [escapeGo_copy _ _ _ hwsne]
        congr 1
      rw [hout]
      exact matchImgLen_after_ws_backtick c1 c2 c3 _ _ hws
    · -- the blanks end at a character that is neither a blank nor `>`:
      -- in the output that position holds the same character or `&`
      obtain ⟨t, ht | ht⟩ :=
        escapeGo_head (lastPrev (some c3) (r3.takeWhile pyIsSpace)) d r4
      · have hout : escapeGo (some c3) 0 r3
            = r3.takeWhile pyIsSpace ++ d :: t := by
          conv_lhs => rw [hdecomp, hdw]
          rw [escapeGo_copy _ _ _ hwsne, ht]
        rw [hout]
        exact matchImgLen_after_ws_not_gt c1 c2 c3 _ d t hws hd hdgt
      · have hout : escapeGo (some c3) 0 r3
            = r3.takeWhile pyIsSpace ++ '&' :: t := by
          conv_lhs => rw [hdecomp, hdw]
          rw [escapeGo_copy _ _ _ hwsne, ht]
        rw [hout]
        exact matchImgLen_after_ws_not_gt c1 c2 c3 _ '&' t hws pyIsSpace_amp (by decide)

theorem escapeGo_idem_fuel : ∀ (n : Nat) (l : List Char), l.length ≤ n →
    ∀ prev, escapeGo prev 0 (escapeGo prev 0 l) = escapeGo prev 0 l := by
  intro n
  induction n with
  | zero =>
    intro l hl prev
    have hnil : l = [] := List.eq_nil_of_length_eq_zero (Nat.le_zero.mp hl)
    subst hnil
    rfl
  | succ n ih =>
    intro l hl prev
    cases l with
    | nil => rfl
    | cons c rest =>
      have hrest : rest.length ≤ n := by simpa using hl
      by_cases hcnd : c = '<' ∧ prev ≠ some '`'
      · obtain ⟨rfl, hprev⟩ := hcnd
        rcases hm : matchImgLen ('<' :: rest) with _ | k
        · -- failed match: `<` is copied, and by `matchImgLen_none_preserved`
          -- the second scan fails there too
          have hstep : escapeGo prev 0 ('<' :: rest)
              = '<' :: escapeGo (some '<') 0 rest := by
            rw [escapeGo]
            simp [hprev, hm]
          have hm2 := matchImgLen_none_preserved rest hm
          have hstep2 : escapeGo prev 0 ('<' :: escapeGo (some '<') 0 rest)
              = '<' :: escapeGo (some '<') 0 (escapeGo (some '<') 0 rest) := by
            rw [escapeGo]
            simp [hprev, hm2]
          rw [hstep, hstep2, ih rest hrest (some '<')]
        · -- successful match: the emitted replacement `&lt;img…>` contains
          -- no `<`, so the second scan copies it and the tail is handled by
          -- the induction hypothesis
          obtain ⟨c1, c2, c3, ws, rest', hdec, hk, hc1, hc2, hc3, hws, hback⟩ :=
            matchImgLen_some _ _ hm
          have hrestdec : rest = c1 :: c2 :: c3 :: (ws ++ '>' :: rest') := by
            injection hdec
          subst hrestdec
          have hstep : escapeGo prev 0 ('<' :: c1 :: c2 :: c3 :: (ws ++ '>' :: rest'))
              = '&' :: 'l' :: 't' :: ';' ::
                escapeGo (some '>') (k - 1) (c1 :: c2 :: c3 :: (ws ++ '>' :: rest')) := by
            rw [escapeGo]
            simp [hprev, hm]
          have hk1 : k - 1 = (ws.length + 1) + 3 := by omega
          have hseg : (c1 :: c2 :: c3 :: (ws ++ '>' :: rest')).take (k - 1)
              = c1 :: c2 :: c3 :: (ws ++ ['>']) := by
            rw [hk1]
            simp only [List.take_succ_cons]
            rw [show ws.length + 1 = ws.length + 1 from rfl, List.take_append]
            simp
          have hdrop : (c1 :: c2 :: c3 :: (ws ++ '>' :: rest')).drop (k - 1) = rest' := by
            rw [hk1]
            simp only [List.drop_succ_cons]
            rw [List.drop_append]
            simp
          rw [hstep, escapeGo_skip (some '>') (k - 1), hseg, hdrop]
          have hxs : ∀ x ∈ ('&' :: 'l' :: 't' :: ';' :: c1 :: c2 :: c3 :: (ws ++ ['>'])),
              x ≠ '<' := by
            intro x hx
            simp only [List.mem_cons, List.mem_append, List.mem_singleton,
              List.not_mem_nil, or_false] at hx
            rcases hx with rfl | rfl | rfl | rfl | rfl | rfl | rfl | hx | rfl
            · decide
            · decide
            · decide
            · decide
            · exact hc1
            · exact hc2
            · exact hc3
            · exact pyIsSpace_ne_lt (hws x hx)
            · decide
          have hshape : ('&' :: 'l' :: 't' :: ';' ::
                ((c1 :: c2 :: c3 :: (ws ++ ['>'])) ++ escapeGo (some '>') 0 rest'))
              = ('&' :: 'l' :: 't' :: ';' :: c1 :: c2 :: c3 :: (ws ++ ['>']))
                ++ escapeGo (some '>') 0 rest' := by
            simp
          rw [hshape, escapeGo_copy prev _ _ hxs]
          have hlast : lastPrev prev ('&' :: 'l' :: 't' :: ';' :: c1 :: c2 :: c3 ::
              (ws ++ ['>'])) = some '>' := by
            rw [show ('&' :: 'l' :: 't' :: ';' :: c1 :: c2 :: c3 :: (ws ++ ['>']))
                = ('&' :: 'l' :: 't' :: ';' :: c1 :: c2 :: c3 :: ws) ++ ['>'] by simp]
            exact lastPrev_append_last _ _ _
          rw [hlast]
          have hrest' : rest'.length ≤ n := by
            simp only [List.length_cons, List.length_append] at hl
            omega
          rw [ih rest' hrest' (some '>')]
      · -- the scanner copies `c` (no `<` or lookbehind blocked), in both passes
        have hstep : ∀ X, escapeGo prev 0 (c :: X) = c :: escapeGo (some c) 0 X := by
          intro X
          rw [escapeGo]
          rcases not_and_or.mp hcnd with hc | hp
          · simp [hc]
          · simp only [ne_eq, not_not] at hp
            simp [hp]
        rw [hstep, hstep, ih rest hrest (some c)]

/-- C2 (amended): of the Content Normalizer's three rewrites only the
third, the inline `<img>`-tag escaping, is idempotent: applying
`escape_img_tags` a second time to its own output produces no further
change, for every input text.  (The first two rewrites are not idempotent;
see the counterexample.) -/
theorem escape_img_tags_idempotent (s : String) :
    escape_img_tags (escape_img_tags s) = escape_img_tags s := by
  unfold escape_img_tags
  exact congrArg String.mk (escapeGo_idem_fuel s.data.length s.data le_rfl none)

end EpubPack
